import Mathlib

/-!
Shallow embedding of the e-Heart Python framework core
(`src/eheart/_engine.py`, `src/eheart/_model.py`, and the grid
computation of `src/eheart/server/_session.py`).

Times and values are modelled as rationals (`ℚ`): every claim checked
here is about control flow and exact bookkeeping, not about
floating-point rounding.

The external adaptive stepper (scipy's `LSODA`) is out of scope for the
repository; it is modelled as a finite script of step outcomes consumed
one at a time, each outcome being either a failure message (what
`LSODA.step()` returns on failure) or a new time together with a
dense-output interpolant (`LSODA.dense_output()`).  Interpolants are
opaque values of a type parameter `ι` evaluated through an explicit
`ev : ι → ℚ → Vec` argument, mirroring scipy's opaque callables.
-/

namespace EHeart

/-- State vectors: the flat numpy array `_y`. -/
abbrev Vec := List ℚ

/-- The model contract (`eheart._model.Model`): the fixed ordered tuple of
differential-variable names (`diffvars`) and the derivative evaluator
(`eval_ode`). -/
structure Model where
  diffvars : List String
  eval_ode : ℚ → Vec → Vec

/-- One outcome of `LSODA.step()` followed by `dense_output()`:
either a diagnostic message (step failed) or the new solver time and the
dense-output interpolant for the step just taken. -/
inductive StepOutcome (ι : Type) where
  | fail (message : String)
  | ok (t : ℚ) (dense : ι)
deriving DecidableEq

/-- The engine state (`eheart._engine.Engine`).  `solver` records whether
`_solver is not None`; the solver's stepping behaviour itself lives in the
script passed to `solve_ivp`.  `ts`/`interpolants` model `_ts` and
`_interpolants` (empty before the first `solve_ivp`, which matches the
Python object where the attributes do not exist yet and are assigned
before first use). -/
structure Engine (ι : Type) where
  model : Model
  t : ℚ
  y : Vec
  init_step : Option ℚ
  min_step : ℚ
  max_step : Option ℚ
  solver : Bool
  ts : List ℚ
  interpolants : List ι

/-- `Engine.__init__`: `t` defaults to 0, `_y = np.zeros(len(model.diffvars))`,
`_solver = None`.  `max_step = none` models the default `np.inf`. -/
def Engine.init (ι : Type) (model : Model) (t : ℚ := 0)
    (init_step : Option ℚ := none) (min_step : ℚ := 0)
    (max_step : Option ℚ := none) : Engine ι :=
  { model := model, t := t, y := List.replicate model.diffvars.length 0,
    init_step := init_step, min_step := min_step, max_step := max_step,
    solver := false, ts := [], interpolants := [] }

/-- The write loop of `Engine.set_diffvar_values`: walk `diffvars` and `_y`
in lockstep; a position whose name occurs in `vdict` gets the dictionary
value, every other position keeps its old value.  (Python iterates over
`enumerate(diffvars)` writing `_y[i]` in place; with the reachable
invariant `len(_y) == len(diffvars)` this lockstep walk is the same
function.) -/
def applyVals (vdict : List (String × ℚ)) : List String → Vec → Vec
  | _, [] => []
  | [], ys => ys
  | var :: vars, yi :: ys =>
    (match vdict.lookup var with
     | some v => v
     | none => yi) :: applyVals vdict vars ys

/-- `Engine.set_diffvar_values(vdict)`. -/
def Engine.set_diffvar_values (e : Engine ι) (vdict : List (String × ℚ)) :
    Engine ι :=
  { e with y := applyVals vdict e.model.diffvars e.y }

/-- The read comprehension of `Engine.get_diffvar_values`: the dict
`{var: _y[i] for i, var in enumerate(diffvars)}` as an ordered
association list. -/
def readVals : List String → Vec → List (String × ℚ)
  | [], _ => []
  | _ :: _, [] => []
  | var :: vars, yi :: ys => (var, yi) :: readVals vars ys

/-- `Engine.get_diffvar_values()`. -/
def Engine.get_diffvar_values (e : Engine ι) : List (String × ℚ) :=
  readVals e.model.diffvars e.y

/-- Python's `l[-n:]`: the last `n` elements (all of `l` when it is
shorter). -/
def lastN (n : ℕ) (l : List α) : List α := l.drop (l.length - n)

/-- Result of the internal `while` loop of `solve_ivp`: loop finished
with the recorded times and interpolants, a step failed with a
diagnostic, or the step script ran out before the target was reached
(behaviour beyond the supplied script is not modelled). -/
inductive LoopRes (ι : Type) where
  | done (ts : List ℚ) (interpolants : List ι)
  | err (message : String) (ts : List ℚ) (interpolants : List ι)
  | fuel (ts : List ℚ) (interpolants : List ι)
deriving DecidableEq

/-- The loop `while self._ts[-1] < tn: ...` of `Engine.solve_ivp`: each
iteration takes one step from the script, raises `SolverError` on a
failure message, and otherwise appends the solver time and the
dense-output interpolant.  (`_ts` is nonempty whenever the loop runs, so
`getLastD _ 0` reads `_ts[-1]`.) -/
def solveLoop (tn : ℚ) : List (StepOutcome ι) → List ℚ → List ι → LoopRes ι
  | [], ts, interps =>
    if ts.getLastD 0 < tn then .fuel ts interps else .done ts interps
  | step :: rest, ts, interps =>
    if ts.getLastD 0 < tn then
      match step with
      | .fail msg => .err msg ts interps
      | .ok t' d => solveLoop tn rest (ts ++ [t']) (interps ++ [d])
    else .done ts interps

/-- The `_ts` history `solve_ivp` starts from: on a fresh solver the
single anchor `[t]`, otherwise the pruning `self._ts = self._ts[-2:]`. -/
def prunedTs (e : Engine ι) : List ℚ :=
  if e.solver then lastN 2 e.ts else [e.t]

/-- The `_interpolants` history `solve_ivp` starts from: `[]` on a fresh
solver, otherwise the pruning `self._interpolants = self._interpolants[-1:]`. -/
def prunedInterps (e : Engine ι) : List ι :=
  if e.solver then lastN 1 e.interpolants else []

/-- Result of `Engine.solve_ivp`: success returns the
`OdeSolution(_ts, _interpolants)` data and the updated engine; `solverErr`
is the raised `SolverError` (the engine keeps the mutations made before
the raise); `indexErr` is the `IndexError` raised by
`self._interpolants[-1]` when no interpolant exists; `fuel` means the
step script was exhausted. -/
inductive SolveRes (ι : Type) where
  | ok (ts : List ℚ) (interpolants : List ι) (e : Engine ι)
  | solverErr (message : String) (e : Engine ι)
  | indexErr (e : Engine ι)
  | fuel (e : Engine ι)

/-- `Engine.solve_ivp(tn)` driven by a step script.  Mirrors the source:
create the solver (fresh `_ts`/`_interpolants`) or prune the retained
history, run the step loop, then commit `_t = tn`,
`_y = _interpolants[-1](tn)` and return `OdeSolution(_ts, _interpolants)`.
On an exception (`SolverError` from the loop, `IndexError` from
`_interpolants[-1]`) the already-performed mutations of `_solver`, `_ts`
and `_interpolants` survive but `_t` and `_y` are untouched. -/
def Engine.solve_ivp (ev : ι → ℚ → Vec) (e : Engine ι)
    (script : List (StepOutcome ι)) (tn : ℚ) : SolveRes ι :=
  match solveLoop tn script (prunedTs e) (prunedInterps e) with
  | .done ts' interps' =>
    match interps'.getLast? with
    | none => .indexErr { e with solver := true, ts := ts', interpolants := interps' }
    | some last =>
      .ok ts' interps'
        { e with solver := true, t := tn, y := ev last tn,
                 ts := ts', interpolants := interps' }
  | .err msg ts' interps' =>
    .solverErr msg { e with solver := true, ts := ts', interpolants := interps' }
  | .fuel ts' interps' =>
    .fuel { e with solver := true, ts := ts', interpolants := interps' }

/-- `Engine.restart(t, y, init_step, min_step, max_step)`: each supplied
argument overwrites the corresponding field, unspecified arguments keep
the prior value, and `_solver` is cleared.  No consistency check is made
between the supplied `y` and the model. -/
def Engine.restart (e : Engine ι) (t : Option ℚ := none) (y : Option Vec := none)
    (init_step : Option ℚ := none) (min_step : Option ℚ := none)
    (max_step : Option ℚ := none) : Engine ι :=
  { e with
    t := t.getD e.t,
    y := y.getD e.y,
    init_step := match init_step with
      | some v => some v
      | none => e.init_step,
    min_step := min_step.getD e.min_step,
    max_step := match max_step with
      | some v => some v
      | none => e.max_step,
    solver := false }

/-- `np.searchsorted(ts, v, side='left')` on a sorted array: the number
of elements strictly below `v`. -/
def searchsortedLeft (ts : List ℚ) (v : ℚ) : ℕ :=
  ts.countP (fun x => decide (x < v))

/-- Evaluation of `scipy.integrate.OdeSolution(ts, interpolants)` at one
time: `ind = searchsorted(ts, t, side='left')`;
`segment = min(max(ind - 1, 0), n_segments - 1)`; evaluate that
segment's interpolant.  (`max(·, 0)` is built into `ℕ` subtraction; an
empty interpolant list, impossible for a constructed `OdeSolution`,
evaluates to `[]`.) -/
def odeSolEval (ev : ι → ℚ → Vec) (ts : List ℚ) (interps : List ι)
    (t : ℚ) : Vec :=
  match interps.get? (min (searchsortedLeft ts t - 1) (interps.length - 1)) with
  | some itp => ev itp t
  | none => []

/-! ### Server session (`src/eheart/server/_session.py`), modelled subset

The protobuf transport is an external collaborator; commands are
modelled as structured data.  A `Session` before a successful INIT has
no `engine`/`model` attribute (`none` here): reading it raises
`AttributeError`, which is caught only by handlers whose bodies are
wrapped in `try`/`except`.  An `Except.error` escaping `process` models
an exception propagating out of `Session.process`, which terminates the
`async for` serving loop of `Session.main`. -/

/-- A Python exception escaping a handler. -/
inductive PyExc where
  | attributeError (attr : String)
deriving DecidableEq

/-- Responses of the modelled command subset. -/
inductive Response where
  | status (success : Bool) (message : String)
  | diffvarNames (names : List String)
  | currentVal (t : ℚ) (y : Vec)
deriving DecidableEq

/-- Session state: `engine` and `model` attributes exist only after a
successful INIT; `restart_needed` as assigned by the handlers. -/
structure Session (ι : Type) where
  engine : Option (Engine ι)
  model : Option Model
  watching : List String
  restart_needed : Bool

/-- A fresh session (`Session.__init__`): no `engine`/`model` attribute,
empty watch list. -/
def Session.fresh (ι : Type) : Session ι :=
  { engine := none, model := none, watching := [], restart_needed := false }

/-- `Session._get_current_val`: reads `self.engine.t` and
`self.engine.y` with no `try`/`except`; before INIT the attribute access
raises `AttributeError`, which propagates out of `process`. -/
def Session.getCurrentVal (s : Session ι) : Except PyExc Response :=
  match s.engine with
  | none => .error (.attributeError "engine")
  | some e => .ok (.currentVal e.t e.y)

/-- `Session._get_diffvar_name`: reads `self.model.diffvars` with no
`try`/`except`. -/
def Session.getDiffvarName (s : Session ι) : Except PyExc Response :=
  match s.model with
  | none => .error (.attributeError "model")
  | some m => .ok (.diffvarNames m.diffvars)

/-- `Session._set_diffvar_val`: inside `try`, first sets
`self.restart_needed = True`, then calls
`self.engine.set_diffvar_values`; any exception is converted to a
`success=False` response (the `restart_needed` assignment survives). -/
def Session.setDiffvarVal (s : Session ι) (valmap : List (String × ℚ)) :
    Except PyExc (Response × Session ι) :=
  match s.engine with
  | none =>
    .ok (.status false "AttributeError: engine",
         { s with restart_needed := true })
  | some e =>
    .ok (.status true "",
         { s with restart_needed := true,
                  engine := some (e.set_diffvar_values valmap) })

/-- The modelled subset of the command alphabet. -/
inductive Command where
  | GET_DIFFVAR_NAME
  | GET_CURRENT_VAL
  | SET_DIFFVAR_VAL (valmap : List (String × ℚ))

/-- `Session.process` restricted to the modelled commands: dispatch
through `COMMAND_FUNCS` with no surrounding `try`/`except`, so an
exception raised by a handler escapes. -/
def Session.process (s : Session ι) (c : Command) :
    Except PyExc (Response × Session ι) :=
  match c with
  | .GET_DIFFVAR_NAME => (s.getDiffvarName).map (fun r => (r, s))
  | .GET_CURRENT_VAL => (s.getCurrentVal).map (fun r => (r, s))
  | .SET_DIFFVAR_VAL valmap => s.setDiffvarVal valmap

/-- `np.arange(start, stop, step)` for `step > 0` in exact arithmetic:
`⌈(stop - start) / step⌉` points `start + k·step`. -/
def np_arange (start stop step : ℚ) : List ℚ :=
  (List.range (Int.toNat ⌈(stop - start) / step⌉)).map
    (fun k : ℕ => start + (k : ℚ) * step)

/-- The output time grid of `Session._solve_ivp`:
`tout = np.arange(tprev, parameter.tn + tstep, tstep)` where `tprev` is
the engine time before the solve and `tstep` the sampling interval. -/
def solveGrid (tprev tn tstep : ℚ) : List ℚ :=
  np_arange tprev (tn + tstep) tstep

/-- The number of points of `solveGrid`: the `np.arange` point count
`ceil((stop - start) / step)` with `stop = tn + tstep`. -/
def gridLen (tprev tn tstep : ℚ) : ℕ :=
  Int.toNat ⌈(tn + tstep - tprev) / tstep⌉

/-! ### Concrete instances used in witnesses and counterexamples -/

/-- A one-variable model (the shape of `SingleExpModel` in the tests). -/
def mW : Model := { diffvars := ["y"], eval_ode := fun _ v => v }

/-- A three-variable model. -/
def mW3 : Model := { diffvars := ["a", "b", "c"], eval_ode := fun _ v => v }

/-- A concrete interpolant evaluator for `ι := ℚ`: the token `c` denotes
the affine interpolant `t ↦ [c + t]`. -/
def evW : ℚ → ℚ → Vec := fun c t => [c + t]

/-- A freshly constructed engine over `mW`. -/
def eFreshW : Engine ℚ := Engine.init ℚ mW

/-- A RUNNING engine over `mW`: a solver exists, the clock is at `t = 1`,
and the retained history holds the internal step from 0 to 2 with one
segment. -/
def eRunW : Engine ℚ :=
  { model := mW, t := 1, y := [3], init_step := none, min_step := 0,
    max_step := none, solver := true, ts := [0, 2], interpolants := [9] }

/-- The engine state after the witness run for the success claim: the
fresh `eFreshW` advanced to `tn = 2` by one internal step to `t = 3`
with dense token `5` (so `y = evW 5 2 = [7]`). -/
def eAfterW : Engine ℚ :=
  { model := mW, t := 2, y := [7], init_step := none,
    min_step := 0, max_step := none, solver := true, ts := [0, 3],
    interpolants := [5] }

/-- The engine state left behind when, starting from `eFreshW`, one step
reaches `t = 1` (token `5`) and the next step fails: the step records
survive, but `t` and `y` keep their pre-call values. -/
def eErrW : Engine ℚ :=
  { model := mW, t := 0, y := [0], init_step := none, min_step := 0,
    max_step := none, solver := true, ts := [0, 1], interpolants := [5] }

/-- The engine state after calling `solve_ivp(0)` on the RUNNING engine
`eRunW` (whose clock is at `t = 1`): the clock moves backward to 0 and
`y` becomes the retained interpolant evaluated at 0 (`evW 9 0 = [9]`). -/
def eBackW : Engine ℚ :=
  { model := mW, t := 0, y := [9], init_step := none, min_step := 0,
    max_step := none, solver := true, ts := [0, 2], interpolants := [9] }

/-- A fresh engine over the three-variable model with state `[1, 2, 3]`. -/
def e3W : Engine ℚ :=
  { model := mW3, t := 0, y := [1, 2, 3], init_step := none, min_step := 0,
    max_step := none, solver := false, ts := [], interpolants := [] }

/-! ### Helper lemmas about the stepping loop and composite evaluation -/

/-- If a nonempty `ts` has all entries but the last below `tn` and its
last entry below `tn` as well, then every entry is below `tn`. -/
theorem all_lt_of_dropLast_lt {ts : List ℚ} {tn : ℚ} (hne : ts ≠ [])
    (hdrop : ∀ x ∈ ts.dropLast, x < tn) (hlast : ts.getLastD 0 < tn) :
    ∀ x ∈ ts, x < tn := by
  intro x hx
  have hsplit := List.dropLast_append_getLast hne
  rw [← hsplit] at hx
  rcases List.mem_append.mp hx with h | h
  · exact hdrop x h
  · have hx' : x = ts.getLast hne := by simpa using h
    rw [List.getLastD_eq_getLast?, List.getLast?_eq_getLast_of_ne_nil hne] at hlast
    simpa [hx'] using hlast

/-- Structural facts about a completed run of the internal step loop:
the recorded history extends the starting history, stays one element
longer than the segment list, keeps all non-final times below the
target, and the final recorded time has reached the target. -/
theorem solveLoop_done_facts {ι : Type} (tn : ℚ) (script : List (StepOutcome ι)) :
    ∀ (ts : List ℚ) (interps : List ι) (ts' : List ℚ) (interps' : List ι),
      solveLoop tn script ts interps = .done ts' interps' →
      ts ≠ [] → ts.length = interps.length + 1 →
      (∀ x ∈ ts.dropLast, x < tn) →
      ts' ≠ [] ∧ ts'.length = interps'.length + 1 ∧
        (∀ x ∈ ts'.dropLast, x < tn) ∧ ¬ ts'.getLastD 0 < tn ∧
        (∃ nw, ts' = ts ++ nw) ∧ (∃ nw, interps' = interps ++ nw) := by
  induction script with
  | nil =>
    intro ts interps ts' interps' h hne hlen hdrop
    simp only [solveLoop] at h
    split at h
    · exact absurd h (by simp)
    · rename_i hcond
      obtain ⟨rfl, rfl⟩ : ts = ts' ∧ interps = interps' := by
        simpa using h
      exact ⟨hne, hlen, hdrop, hcond, ⟨[], by simp⟩, ⟨[], by simp⟩⟩
  | cons step rest ih =>
    intro ts interps ts' interps' h hne hlen hdrop
    simp only [solveLoop] at h
    split at h
    · rename_i hcond
      cases step with
      | fail msg => exact absurd h (by simp)
      | ok t' d =>
        have hdrop' : ∀ x ∈ (ts ++ [t']).dropLast, x < tn := by
          intro x hx
          rw [List.dropLast_concat] at hx
          exact all_lt_of_dropLast_lt hne hdrop hcond x hx
        have hfacts := ih (ts ++ [t']) (interps ++ [d]) ts' interps' h
          (by simp) (by simp [hlen]) hdrop'
        obtain ⟨h1, h2, h3, h4, ⟨nw, hnw⟩, ⟨nw2, hnw2⟩⟩ := hfacts
        exact ⟨h1, h2, h3, h4, ⟨t' :: nw, by simpa using hnw⟩,
               ⟨d :: nw2, by simpa using hnw2⟩⟩
    · rename_i hcond
      obtain ⟨rfl, rfl⟩ : ts = ts' ∧ interps = interps' := by
        simpa using h
      exact ⟨hne, hlen, hdrop, hcond, ⟨[], by simp⟩, ⟨[], by simp⟩⟩

/-- A failing run of the step loop got its diagnostic from a failing
step of the script. -/
theorem solveLoop_err_mem {ι : Type} (tn : ℚ) (script : List (StepOutcome ι)) :
    ∀ (ts : List ℚ) (interps : List ι) (msg : String)
      (ts1 : List ℚ) (i1 : List ι),
      solveLoop tn script ts interps = .err msg ts1 i1 →
      StepOutcome.fail msg ∈ script := by
  induction script with
  | nil =>
    intro ts interps msg ts1 i1 h
    simp only [solveLoop] at h
    split at h <;> exact absurd h (by simp)
  | cons step rest ih =>
    intro ts interps msg ts1 i1 h
    simp only [solveLoop] at h
    split at h
    · cases step with
      | fail msg' =>
        injection h with h1 h2 h3
        rw [h1]
        exact List.mem_cons_self _ _
      | ok t' d =>
        exact List.mem_cons_of_mem _ (ih _ _ _ _ _ h)
    · exact absurd h (by simp)

/-- Dispatch of the composite `OdeSolution` evaluation at the commit
time: when all recorded times but the last are below `t` and the last
has reached `t`, `searchsorted` selects the final segment, so evaluating
the composite interpolant equals evaluating `_interpolants[-1]`. -/
theorem odeSolEval_eq_last {ι : Type} (ev : ι → ℚ → Vec) (ts : List ℚ)
    (interps : List ι) (t : ℚ) (last : ι) (hne : ts ≠ [])
    (hlen : ts.length = interps.length + 1)
    (hdrop : ∀ x ∈ ts.dropLast, x < t) (hlast : ¬ ts.getLastD 0 < t)
    (hl : interps.getLast? = some last) :
    odeSolEval ev ts interps t = ev last t := by
  have hi : interps ≠ [] := by
    intro h
    rw [h] at hl
    simp at hl
  have hcount : searchsortedLeft ts t = interps.length := by
    have hsplit := List.dropLast_append_getLast hne
    rw [searchsortedLeft]
    conv_lhs => rw [← hsplit]
    rw [List.countP_append]
    have h1 : (ts.dropLast).countP (fun x => decide (x < t)) = ts.dropLast.length :=
      List.countP_eq_length.mpr (fun a ha => decide_eq_true (hdrop a ha))
    have hge : ¬ ts.getLast hne < t := by
      rw [List.getLastD_eq_getLast?, List.getLast?_eq_getLast_of_ne_nil hne] at hlast
      simpa using hlast
    have h2 : ([ts.getLast hne] : List ℚ).countP (fun x => decide (x < t)) = 0 := by
      simp [List.countP_cons, List.countP_nil, hge]
    rw [h1, h2, List.length_dropLast, hlen]
    simp
  rw [odeSolEval, hcount]
  have hmin : min (interps.length - 1) (interps.length - 1) = interps.length - 1 :=
    min_self _
  rw [hmin]
  rw [List.get?_eq_getElem?, ← List.getLast?_eq_getElem?, hl]

/-! ### Claims -/

/-- C1: for a RUNNING (or fresh) engine, a successful `solve_ivp(tn)`
sets the current time to exactly `tn`, sets the current state vector to
the composite interpolant (the returned `OdeSolution` over the retained
`_ts`/`_interpolants`) evaluated at `tn`, and returns the composite
interpolant obtained by extending the retained history; in particular
after each successful advance the reported time equals the target
exactly, so after sequential advances it equals the last target.  The
hypothesis `hist` is the reachable-state invariant for a RUNNING engine:
at least two recorded times, at least one retained segment, and every
retained time except the last lies strictly below the new target. -/
theorem solve_ivp_success_commits_target (ι : Type) (ev : ι → ℚ → Vec)
    (e : Engine ι) (script : List (StepOutcome ι)) (tn : ℚ)
    (ts' : List ℚ) (interps' : List ι) (e' : Engine ι)
    (hist : e.solver = true →
      2 ≤ e.ts.length ∧ 1 ≤ e.interpolants.length ∧
      ∀ x ∈ (lastN 2 e.ts).dropLast, x < tn)
    (h : Engine.solve_ivp ev e script tn = .ok ts' interps' e') :
    e'.t = tn ∧ e'.ts = ts' ∧ e'.interpolants = interps' ∧
    e'.y = odeSolEval ev ts' interps' tn ∧
    (∃ nw, ts' = prunedTs e ++ nw) ∧
    (∃ nw, interps' = prunedInterps e ++ nw) := by
  have hne0 : prunedTs e ≠ [] := by
    cases hsol : e.solver with
    | false => simp [prunedTs, hsol]
    | true =>
      obtain ⟨ha, -, -⟩ := hist hsol
      have : (lastN 2 e.ts).length = 2 := by
        simp only [lastN, List.length_drop]
        omega
      simp only [prunedTs, hsol, if_true]
      intro hnil
      rw [hnil] at this
      simp at this
  have hlen0 : (prunedTs e).length = (prunedInterps e).length + 1 := by
    cases hsol : e.solver with
    | false => simp [prunedTs, prunedInterps, hsol]
    | true =>
      obtain ⟨ha, hb, -⟩ := hist hsol
      simp only [prunedTs, prunedInterps, hsol, if_true, lastN, List.length_drop]
      omega
  have hdrop0 : ∀ x ∈ (prunedTs e).dropLast, x < tn := by
    cases hsol : e.solver with
    | false => simp [prunedTs, hsol]
    | true =>
      obtain ⟨-, -, hc⟩ := hist hsol
      simpa [prunedTs, hsol] using hc
  rw [Engine.solve_ivp] at h
  split at h
  case h_2 => exact absurd h (by simp)
  case h_3 => exact absurd h (by simp)
  case h_1 ts0 i0 hloop =>
    split at h
    case h_1 => exact absurd h (by simp)
    case h_2 last hlast0 =>
      obtain ⟨rfl, rfl, rfl⟩ :
          ts0 = ts' ∧ i0 = interps' ∧
          ({ e with solver := true, t := tn, y := ev last tn,
                    ts := ts0, interpolants := i0 } : Engine ι) = e' := by
        simpa using h
      obtain ⟨hne, hlen, hdrop, hlast, hext, hext2⟩ :=
        solveLoop_done_facts tn script (prunedTs e) (prunedInterps e)
          _ _ hloop hne0 hlen0 hdrop0
      refine ⟨rfl, rfl, rfl, ?_, hext, hext2⟩
      exact (odeSolEval_eq_last ev _ _ tn last hne hlen hdrop
        hlast hlast0).symm

/-- Witness for C1: a fresh engine advanced to `tn = 2` by a script
whose single step reaches `t = 3`. -/
theorem solve_ivp_success_commits_target_witness :
    eAfterW.t = 2 ∧ eAfterW.ts = [0, 3] ∧ eAfterW.interpolants = [5] ∧
    eAfterW.y = odeSolEval evW [0, 3] [5] 2 ∧
    (∃ nw, [(0 : ℚ), 3] = prunedTs eFreshW ++ nw) ∧
    (∃ nw, [(5 : ℚ)] = prunedInterps eFreshW ++ nw) :=
  solve_ivp_success_commits_target ℚ evW eFreshW [.ok 3 5] 2 [0, 3] [5]
    eAfterW (fun hc => absurd hc (by decide))
    (by norm_num [Engine.solve_ivp, solveLoop, prunedTs, prunedInterps,
      eFreshW, Engine.init, mW, evW, eAfterW, lastN])

/-- C4: a `solve_ivp` call on an engine whose solver already exists
starts, before taking any step, from exactly the two most recent
recorded timestamps and the single most recent segment
(`prunedTs`/`prunedInterps` are the histories `solve_ivp` hands to its
step loop); everything older is discarded. -/
theorem solve_ivp_running_prunes_to_last_two (ι : Type) (e : Engine ι)
    (hs : e.solver = true) (h2 : 2 ≤ e.ts.length)
    (h1 : 1 ≤ e.interpolants.length) :
    prunedTs e = lastN 2 e.ts ∧ prunedInterps e = lastN 1 e.interpolants ∧
    (prunedTs e).length = 2 ∧ (prunedInterps e).length = 1 ∧
    (∃ old, e.ts = old ++ prunedTs e ∧ old.length = e.ts.length - 2) ∧
    (∃ old, e.interpolants = old ++ prunedInterps e ∧
      old.length = e.interpolants.length - 1) := by
  refine ⟨by simp [prunedTs, hs], by simp [prunedInterps, hs], ?_, ?_, ?_, ?_⟩
  · simp only [prunedTs, hs, if_true, lastN, List.length_drop]
    omega
  · simp only [prunedInterps, hs, if_true, lastN, List.length_drop]
    omega
  · refine ⟨e.ts.take (e.ts.length - 2), ?_, ?_⟩
    · simp [prunedTs, hs, lastN]
    · simp only [List.length_take]
      omega
  · refine ⟨e.interpolants.take (e.interpolants.length - 1), ?_, ?_⟩
    · simp [prunedInterps, hs, lastN]
    · simp only [List.length_take]
      omega

/-- Witness for C4: the RUNNING engine `eRunW`. -/
theorem solve_ivp_running_prunes_to_last_two_witness :
    prunedTs eRunW = lastN 2 eRunW.ts ∧
    prunedInterps eRunW = lastN 1 eRunW.interpolants ∧
    (prunedTs eRunW).length = 2 ∧ (prunedInterps eRunW).length = 1 ∧
    (∃ old, eRunW.ts = old ++ prunedTs eRunW ∧
      old.length = eRunW.ts.length - 2) ∧
    (∃ old, eRunW.interpolants = old ++ prunedInterps eRunW ∧
      old.length = eRunW.interpolants.length - 1) :=
  solve_ivp_running_prunes_to_last_two ℚ eRunW rfl (by decide) (by decide)

/-- C2: `solve_ivp` has no backward-time check.  On the RUNNING engine
`eRunW` with current time 1, `solve_ivp(0)` does not fail fast with any
error: it returns success, silently moves the clock backward to 0, and
sets `y` from the retained interpolant.  (On a fresh engine the same
call instead dies with an `IndexError`, also not a configuration
error.) -/
theorem solve_ivp_backward_target_not_rejected :
    Engine.solve_ivp evW eRunW [] 0 = .ok [0, 2] [9] eBackW ∧
    eBackW.t = 0 ∧ eBackW.t < eRunW.t := by
  refine ⟨?_, rfl, by norm_num [eBackW, eRunW]⟩
  norm_num [Engine.solve_ivp, solveLoop, prunedTs, prunedInterps, eRunW,
    evW, eBackW, lastN]

/-- C3 (amended): when a step of the script fails, `solve_ivp` raises
`SolverError` carrying the stepper's diagnostic text, and the engine's
committed time and state (`_t`, `_y`) remain at their values from before
the call — never past the last successfully completed step boundary,
which is recorded only in the retained history. -/
theorem solve_ivp_failure_keeps_precall_state (ι : Type) (ev : ι → ℚ → Vec)
    (e : Engine ι) (script : List (StepOutcome ι)) (tn : ℚ) (msg : String)
    (e' : Engine ι)
    (h : Engine.solve_ivp ev e script tn = .solverErr msg e') :
    e'.t = e.t ∧ e'.y = e.y ∧ StepOutcome.fail msg ∈ script := by
  rw [Engine.solve_ivp] at h
  split at h
  · split at h <;> exact absurd h (by simp)
  · rename_i msg0 ts0 i0 hloop
    obtain ⟨rfl, rfl⟩ :
        msg0 = msg ∧
        ({ e with solver := true, ts := ts0, interpolants := i0 } :
          Engine ι) = e' := by
      simpa using h
    exact ⟨rfl, rfl, solveLoop_err_mem tn script _ _ _ _ _ hloop⟩
  · exact absurd h (by simp)

/-- Witness for the amended C3: the concrete failing run behind `eErrW`. -/
theorem solve_ivp_failure_keeps_precall_state_witness :
    eErrW.t = eFreshW.t ∧ eErrW.y = eFreshW.y ∧
    StepOutcome.fail "boom" ∈
      ([.ok 1 5, .fail "boom"] : List (StepOutcome ℚ)) :=
  solve_ivp_failure_keeps_precall_state ℚ evW eFreshW [.ok 1 5, .fail "boom"]
    2 "boom" eErrW rfl

/-- C3 counterexample: with one successful step to `t = 1` followed by a
failing step, the engine's committed time after the raised error is the
pre-call value 0, not the last successfully completed internal step
boundary 1. -/
theorem solve_ivp_failure_not_at_step_boundary :
    Engine.solve_ivp evW eFreshW [.ok 1 5, .fail "boom"] 2 =
      .solverErr "boom" eErrW ∧
    eErrW.t = 0 ∧ eErrW.ts.getLastD 0 = 1 ∧
    eErrW.t ≠ eErrW.ts.getLastD 0 := by
  refine ⟨rfl, rfl, rfl, by decide⟩

/-- C9 counterexample: restarting the one-variable engine with an
explicitly supplied two-entry `y` changes the state-vector length from
1 to 2, breaking `len(StateVector) == len(declaredVariables)`. -/
theorem restart_explicit_y_changes_length :
    (eFreshW.restart none (some [1, 2])).y.length = 2 ∧
    mW.diffvars.length = 1 ∧ eFreshW.y.length = 1 ∧
    (eFreshW.restart none (some [1, 2])).y.length ≠ eFreshW.y.length := by
  exact ⟨rfl, rfl, rfl, by decide⟩

/-- `applyVals` preserves the length of the state vector. -/
theorem applyVals_length (vdict : List (String × ℚ)) :
    ∀ (vars : List String) (ys : Vec),
      (applyVals vdict vars ys).length = ys.length := by
  intro vars
  induction vars with
  | nil =>
    intro ys
    cases ys <;> simp [applyVals]
  | cons var vars ih =>
    intro ys
    cases ys with
    | nil => simp [applyVals]
    | cons yi ys => simp [applyVals, ih]

/-- C9 (amended): the state-vector length equals the declared-variable
count at construction and is preserved by `set_diffvar_values` and by
`restart` without an explicit `y`; `restart` with an explicit `y`
installs it unchecked, adopting whatever length it has. -/
theorem state_vector_length_spec (ι : Type) (m : Model) (t : ℚ)
    (istep : Option ℚ) (mstep : ℚ) (xstep : Option ℚ) (e : Engine ι)
    (vdict : List (String × ℚ)) (t' : Option ℚ) (v : Vec)
    (i' mn' mx' : Option ℚ) :
    (Engine.init ι m t istep mstep xstep).y.length = m.diffvars.length ∧
    (e.set_diffvar_values vdict).y.length = e.y.length ∧
    (e.restart t' none i' mn' mx').y = e.y ∧
    (e.restart t' (some v) i' mn' mx').y = v := by
  refine ⟨by simp [Engine.init], ?_, rfl, rfl⟩
  exact applyVals_length vdict e.model.diffvars e.y

/-- C10: a newly constructed engine has the all-zeros state vector of
the declared length, the constructor's `t` (0 when omitted), no solver
and empty histories; construction depends on the model only through its
declared variable list, not through its derivative function (no
derivative evaluation happens). -/
theorem engine_init_state (ι : Type) (m : Model) (t : ℚ) (istep : Option ℚ)
    (mstep : ℚ) (xstep : Option ℚ) (d : List String)
    (f g : ℚ → Vec → Vec) :
    (Engine.init ι m t istep mstep xstep).y =
      List.replicate m.diffvars.length 0 ∧
    (Engine.init ι m t istep mstep xstep).y.length = m.diffvars.length ∧
    (Engine.init ι m t istep mstep xstep).t = t ∧
    (Engine.init ι m).t = 0 ∧
    (Engine.init ι m t istep mstep xstep).solver = false ∧
    (Engine.init ι m t istep mstep xstep).ts = [] ∧
    (Engine.init ι m t istep mstep xstep).interpolants = [] ∧
    Engine.init ι { diffvars := d, eval_ode := f } t istep mstep xstep =
      { Engine.init ι { diffvars := d, eval_ode := g } t istep mstep xstep
        with model := { diffvars := d, eval_ode := f } } :=
  ⟨rfl, by simp [Engine.init], rfl, rfl, rfl, rfl, rfl, rfl⟩

/-- After `applyVals`, reading back through `readVals` returns the
written value for every declared name bound in the dictionary. -/
theorem lookup_readVals_applyVals_written (m : List (String × ℚ)) :
    ∀ (vars : List String) (ys : Vec), ys.length = vars.length →
      ∀ (name : String) (v : ℚ), name ∈ vars → m.lookup name = some v →
        (readVals vars (applyVals m vars ys)).lookup name = some v := by
  intro vars
  induction vars with
  | nil =>
    intro ys _ name v hmem
    simp at hmem
  | cons var vars ih =>
    intro ys hlen name v hmem hv
    cases ys with
    | nil => simp at hlen
    | cons yi ys =>
      by_cases hname : name = var
      · subst hname
        simp only [applyVals, hv, readVals, List.lookup_cons, beq_self_eq_true]
      · have hmem' : name ∈ vars := by
          rcases List.mem_cons.mp hmem with h | h
          · exact absurd h hname
          · exact h
        simp only [applyVals, readVals, List.lookup_cons]
        rw [beq_eq_false_iff_ne.mpr hname]
        exact ih ys (by simpa using hlen) name v hmem' hv

/-- After `applyVals`, reading back through `readVals` returns the prior
value for every name the dictionary does not bind. -/
theorem lookup_readVals_applyVals_missing (m : List (String × ℚ)) :
    ∀ (vars : List String) (ys : Vec), ys.length = vars.length →
      ∀ (name : String), m.lookup name = none →
        (readVals vars (applyVals m vars ys)).lookup name =
          (readVals vars ys).lookup name := by
  intro vars
  induction vars with
  | nil => intro ys _ name _; rfl
  | cons var vars ih =>
    intro ys hlen name hnone
    cases ys with
    | nil => simp at hlen
    | cons yi ys =>
      by_cases hname : name = var
      · subst hname
        simp only [applyVals, hnone, readVals, List.lookup_cons,
          beq_self_eq_true]
      · simp only [applyVals, readVals, List.lookup_cons]
        rw [beq_eq_false_iff_ne.mpr hname]
        exact ih ys (by simpa using hlen) name hnone

/-- Positions whose declared name the dictionary does not bind are left
untouched by `applyVals`. -/
theorem applyVals_get?_untouched (m : List (String × ℚ)) :
    ∀ (vars : List String) (ys : Vec) (i : ℕ),
      (∀ nm, vars.get? i = some nm → m.lookup nm = none) →
      (applyVals m vars ys).get? i = ys.get? i := by
  intro vars
  induction vars with
  | nil =>
    intro ys i _
    cases ys <;> rfl
  | cons var vars ih =>
    intro ys i hm
    cases ys with
    | nil => rfl
    | cons yi ys =>
      cases i with
      | zero =>
        have h0 : m.lookup var = none := hm var rfl
        simp [applyVals, h0]
      | succ i =>
        simp only [applyVals, List.get?_cons_succ]
        exact ih ys i (fun nm hnm => hm nm hnm)

/-- C5: `set_diffvar_values(m)` followed by `get_diffvar_values()`
returns exactly the written value for every declared name bound in `m`
and the prior value for every name not bound in `m`; state-vector
positions of unbound names are untouched. -/
theorem set_then_get_roundtrip (ι : Type) (e : Engine ι)
    (m : List (String × ℚ)) (hlen : e.y.length = e.model.diffvars.length) :
    (∀ name v, name ∈ e.model.diffvars → m.lookup name = some v →
      ((e.set_diffvar_values m).get_diffvar_values).lookup name = some v) ∧
    (∀ name, m.lookup name = none →
      ((e.set_diffvar_values m).get_diffvar_values).lookup name =
        (e.get_diffvar_values).lookup name) ∧
    (∀ i, (∀ nm, e.model.diffvars.get? i = some nm → m.lookup nm = none) →
      (e.set_diffvar_values m).y.get? i = e.y.get? i) := by
  refine ⟨?_, ?_, ?_⟩
  · intro name v hmem hv
    exact lookup_readVals_applyVals_written m e.model.diffvars e.y hlen
      name v hmem hv
  · intro name hnone
    exact lookup_readVals_applyVals_missing m e.model.diffvars e.y hlen
      name hnone
  · intro i hm
    exact applyVals_get?_untouched m e.model.diffvars e.y i hm

/-- Witness for C5: the three-variable engine `e3W` with the binding
`b ↦ 9`. -/
theorem set_then_get_roundtrip_witness :
    (∀ name v, name ∈ e3W.model.diffvars →
      (([("b", 9)] : List (String × ℚ)).lookup name = some v) →
      ((e3W.set_diffvar_values [("b", 9)]).get_diffvar_values).lookup name =
        some v) ∧
    (∀ name, ([("b", 9)] : List (String × ℚ)).lookup name = none →
      ((e3W.set_diffvar_values [("b", 9)]).get_diffvar_values).lookup name =
        (e3W.get_diffvar_values).lookup name) ∧
    (∀ i, (∀ nm, e3W.model.diffvars.get? i = some nm →
        ([("b", 9)] : List (String × ℚ)).lookup nm = none) →
      (e3W.set_diffvar_values [("b", 9)]).y.get? i = e3W.y.get? i) :=
  set_then_get_roundtrip ℚ e3W [("b", 9)] rfl

/-- An association list none of whose keys is `name` has no entry for
`name`. -/
theorem lookup_eq_none_of_no_key (name : String) :
    ∀ (m : List (String × ℚ)), (∀ p ∈ m, p.1 ≠ name) →
      m.lookup name = none := by
  intro m
  induction m with
  | nil => intro _; rfl
  | cons p rest ih =>
    intro h
    obtain ⟨k, v⟩ := p
    have hk : k ≠ name := h (k, v) (List.mem_cons_self _ _)
    rw [List.lookup_cons, beq_eq_false_iff_ne.mpr (Ne.symm hk)]
    exact ih (fun q hq => h q (List.mem_cons_of_mem _ hq))

/-- A dictionary with no entry for any of the walked names leaves the
state vector unchanged. -/
theorem applyVals_id_of_undeclared (m : List (String × ℚ)) :
    ∀ (vars : List String) (ys : Vec),
      (∀ var ∈ vars, m.lookup var = none) → applyVals m vars ys = ys := by
  intro vars
  induction vars with
  | nil =>
    intro ys _
    cases ys <;> rfl
  | cons var vars ih =>
    intro ys h
    cases ys with
    | nil => rfl
    | cons yi ys =>
      have h0 : m.lookup var = none := h var (List.mem_cons_self _ _)
      simp only [applyVals, h0]
      rw [ih ys (fun q hq => h q (List.mem_cons_of_mem _ hq))]

/-- C7 (amended): `set_diffvar_values` performs no name resolution and
raises no error for undeclared names — a dictionary whose keys are all
undeclared is silently ignored and the engine is returned unchanged. -/
theorem set_diffvar_values_ignores_undeclared (ι : Type) (e : Engine ι)
    (m : List (String × ℚ)) (hdisj : ∀ p ∈ m, p.1 ∉ e.model.diffvars) :
    e.set_diffvar_values m = e := by
  have happ : applyVals m e.model.diffvars e.y = e.y := by
    apply applyVals_id_of_undeclared
    intro var hvar
    apply lookup_eq_none_of_no_key
    intro p hp hpv
    exact hdisj p hp (hpv ▸ hvar)
  show ({ e with y := applyVals m e.model.diffvars e.y } : Engine ι) = e
  rw [happ]

/-- Witness for the amended C7. -/
theorem set_diffvar_values_ignores_undeclared_witness :
    eFreshW.set_diffvar_values [("w", 3)] = eFreshW :=
  set_diffvar_values_ignores_undeclared ℚ eFreshW [("w", 3)] (by decide)

/-- C7 counterexample: writing a value under the undeclared name `"w"`
on the one-variable engine is accepted and ignored — the call returns
the unchanged engine and no error of any kind — rather than being
rejected with an unknown-variable error. -/
theorem set_undeclared_name_not_rejected :
    eFreshW.set_diffvar_values [("w", 3)] = eFreshW ∧
    "w" ∉ mW.diffvars ∧
    (eFreshW.set_diffvar_values [("w", 3)]).get_diffvar_values =
      eFreshW.get_diffvar_values := by
  refine ⟨rfl, by decide, rfl⟩

/-- C8 (amended): handlers whose bodies are wrapped in `try`/`except`
convert failures into structured `success=False` responses
(`SET_DIFFVAR_VAL` before INIT), but `GET_CURRENT_VAL` and
`GET_DIFFVAR_NAME` have no such wrapper: invoked before a successful
INIT they raise an uncaught `AttributeError` that escapes
`Session.process` and terminates the serving session. -/
theorem process_uncaught_before_init (ι : Type) (s : Session ι)
    (heng : s.engine = none) (hmod : s.model = none) :
    s.process Command.GET_CURRENT_VAL =
      .error (.attributeError "engine") ∧
    s.process Command.GET_DIFFVAR_NAME =
      .error (.attributeError "model") ∧
    ∀ valmap, s.process (Command.SET_DIFFVAR_VAL valmap) =
      .ok (.status false "AttributeError: engine",
           { s with restart_needed := true }) := by
  refine ⟨?_, ?_, ?_⟩
  · simp [Session.process, Session.getCurrentVal, heng, Except.map]
  · simp [Session.process, Session.getDiffvarName, hmod, Except.map]
  · intro valmap
    simp [Session.process, Session.setDiffvarVal, heng]

/-- Witness for the amended C8: the fresh (pre-INIT) session. -/
theorem process_uncaught_before_init_witness :
    (Session.fresh ℚ).process Command.GET_CURRENT_VAL =
      .error (.attributeError "engine") ∧
    (Session.fresh ℚ).process Command.GET_DIFFVAR_NAME =
      .error (.attributeError "model") ∧
    ∀ valmap, (Session.fresh ℚ).process (Command.SET_DIFFVAR_VAL valmap) =
      .ok (.status false "AttributeError: engine",
           { Session.fresh ℚ with restart_needed := true }) :=
  process_uncaught_before_init ℚ (Session.fresh ℚ) rfl rfl

/-- C8 counterexample: `GET_CURRENT_VAL` received before any successful
INIT makes `Session.process` raise (an `AttributeError` escapes rather
than any response being returned), so processing does not always return
a response. -/
theorem process_get_current_val_before_init_raises :
    (Session.fresh ℚ).process Command.GET_CURRENT_VAL =
      .error (.attributeError "engine") := rfl

/-- C6 counterexample: with previous time 0, target `tn = 4` and
sampling interval 3, the grid is `[0, 3, 6]`: it does not end at the
target 4 (which is not on the grid at all) and its last point 6 lies
beyond the target. -/
theorem solveGrid_overshoots_target :
    solveGrid 0 4 3 = [0, 3, 6] ∧ (6 : ℚ) ∈ solveGrid 0 4 3 ∧
    (4 : ℚ) < 6 ∧ (4 : ℚ) ∉ solveGrid 0 4 3 := by
  have hceil : (⌈(((4 : ℚ) + 3) - 0) / 3⌉ : ℤ) = 3 := by
    rw [Int.ceil_eq_iff]
    norm_num
  have hgrid : solveGrid 0 4 3 = [0, 3, 6] := by
    rw [solveGrid, np_arange, hceil]
    have h3 : Int.toNat 3 = 3 := rfl
    rw [h3]
    simp [List.range_succ]
    norm_num
  refine ⟨hgrid, by rw [hgrid]; norm_num, by norm_num, by rw [hgrid]; norm_num⟩

/-- C6 (amended): for a positive sampling interval and `tprev ≤ tn`, the
grid consists of the points `tprev + k·h` for `k < gridLen`, starting at
`tprev` and stepped by `h`; its last point lies in `[tn, tn + h)` — so
the grid always reaches the target but ends at `tn` exactly (with no
point beyond `tn`) precisely when `tn - tprev` is a natural multiple of
`h`; otherwise the last point overshoots `tn` by less than `h`. -/
theorem solveGrid_spec (tprev tn h : ℚ) (hpos : 0 < h) (hle : tprev ≤ tn) :
    solveGrid tprev tn h =
      (List.range (gridLen tprev tn h)).map
        (fun k : ℕ => tprev + (k : ℚ) * h) ∧
    1 ≤ gridLen tprev tn h ∧
    (solveGrid tprev tn h).head? = some tprev ∧
    (solveGrid tprev tn h).getLastD 0 =
      tprev + ((gridLen tprev tn h : ℚ) - 1) * h ∧
    tn ≤ (solveGrid tprev tn h).getLastD 0 ∧
    (solveGrid tprev tn h).getLastD 0 < tn + h ∧
    ((solveGrid tprev tn h).getLastD 0 = tn ↔
      ∃ k : ℕ, tn - tprev = (k : ℚ) * h) := by
  have hq1 : (1 : ℚ) ≤ (tn + h - tprev) / h := by
    rw [le_div_iff₀ hpos]
    linarith
  have hcpos : 0 < ⌈(tn + h - tprev) / h⌉ := by
    rw [Int.lt_ceil]
    push_cast
    linarith
  have hn1 : 1 ≤ gridLen tprev tn h := by
    rw [gridLen]
    omega
  obtain ⟨m, hm⟩ : ∃ m, gridLen tprev tn h = m + 1 :=
    ⟨gridLen tprev tn h - 1, by omega⟩
  have hceil_eq : ⌈(tn + h - tprev) / h⌉ = (m : ℤ) + 1 := by
    have : Int.toNat ⌈(tn + h - tprev) / h⌉ = m + 1 := by
      rw [← gridLen, hm]
    omega
  have hdef : solveGrid tprev tn h =
      (List.range (gridLen tprev tn h)).map
        (fun k : ℕ => tprev + (k : ℚ) * h) := rfl
  have hlast : (solveGrid tprev tn h).getLastD 0 = tprev + (m : ℚ) * h := by
    rw [hdef, hm, List.range_succ, List.map_append]
    simp
  have hub : (m : ℚ) < (tn + h - tprev) / h := by
    have := Int.ceil_lt_add_one ((tn + h - tprev) / h)
    rw [hceil_eq] at this
    push_cast at this
    linarith
  have hlb : (tn + h - tprev) / h ≤ (m : ℚ) + 1 := by
    have := Int.le_ceil ((tn + h - tprev) / h)
    rw [hceil_eq] at this
    push_cast at this
    linarith
  have hub' : (m : ℚ) * h < tn + h - tprev := by
    rw [← lt_div_iff₀ hpos]
    exact hub
  have hlb' : tn + h - tprev ≤ ((m : ℚ) + 1) * h := by
    rw [← div_le_iff₀ hpos]
    exact hlb
  have hlb'' : tn ≤ tprev + (m : ℚ) * h := by
    have hexp : ((m : ℚ) + 1) * h = (m : ℚ) * h + h := by ring
    linarith [hlb'.trans_eq hexp]
  refine ⟨hdef, hn1, ?_, ?_, ?_, ?_, ?_⟩
  · rw [hdef, List.head?_map, List.head?_range]
    have : ¬ gridLen tprev tn h = 0 := by omega
    simp [this]
  · rw [hlast, hm]
    push_cast
    ring
  · rw [hlast]
    exact hlb''
  · rw [hlast]
    linarith
  · rw [hlast]
    constructor
    · intro heq
      exact ⟨m, by linarith⟩
    · rintro ⟨k, hk⟩
      have hq : (tn + h - tprev) / h = (k : ℚ) + 1 := by
        rw [div_eq_iff (ne_of_gt hpos)]
        linarith [hk]
      have hck : ⌈(tn + h - tprev) / h⌉ = (k : ℤ) + 1 := by
        rw [hq]
        have : ((k : ℚ) + 1) = (((k : ℤ) + 1 : ℤ) : ℚ) := by push_cast; ring
        rw [this, Int.ceil_intCast]
      have hmk : (m : ℤ) = (k : ℤ) := by
        rw [hceil_eq] at hck
        omega
      have hmk' : (m : ℚ) = (k : ℚ) := by
        exact_mod_cast congrArg (fun z : ℤ => (z : ℚ)) hmk
      rw [hmk']
      linarith

/-- Witness for the amended C6: previous time 0, target 4, interval 2
(a target exactly on the grid). -/
theorem solveGrid_spec_witness :
    solveGrid 0 4 2 =
      (List.range (gridLen 0 4 2)).map (fun k : ℕ => 0 + (k : ℚ) * 2) ∧
    1 ≤ gridLen 0 4 2 ∧
    (solveGrid 0 4 2).head? = some 0 ∧
    (solveGrid 0 4 2).getLastD 0 = 0 + ((gridLen 0 4 2 : ℚ) - 1) * 2 ∧
    (4 : ℚ) ≤ (solveGrid 0 4 2).getLastD 0 ∧
    (solveGrid 0 4 2).getLastD 0 < 4 + 2 ∧
    ((solveGrid 0 4 2).getLastD 0 = 4 ↔
      ∃ k : ℕ, (4 : ℚ) - 0 = (k : ℚ) * 2) :=
  solveGrid_spec 0 4 2 (by norm_num) (by norm_num)

end EHeart
